import Mathlib

/-!
# Verification of the ionogram codec and record algebra

A shallow embedding of `ion_class.py` (class `Ionogram`) and of the window
enumeration in `process.py`, with theorems settling the specified properties.

Conventions of the embedding:
* The binary body is a flat sequence of 4-byte groups; each group is a pair
  of big-endian 16-bit words, modelled as `ℕ × ℕ` (both components < 2^16 in
  any byte string; the parser only combines whole 2-byte words).
* Python `int` is `Int`/`ℕ`, Python `float` is `ℝ`.
* Python list indexing `l[i]` (which accepts negative indices and raises
  `IndexError` out of range) is `pyGet`; code that can raise returns `Except`.
-/

namespace Ion

/-! ## Cluster codec: `Ionogram.__parse_ionogram` and `Ionogram.__check_new_cluster`

`__check_new_cluster(value, flag)` takes the first byte of the 2-byte word
(`value[0:1]`, i.e. `w / 256` for a big-endian word `w`), ANDs it with the
flag byte `0x80` and compares with the flag. -/

def isHeader (w : ℕ) : Bool := (w / 256) &&& 128 == 128

/-- The mutable state of `__parse_ionogram`: the running 0-based frequency
counter `ifn_` (initially `-1`) and the accumulated `noise` and `echoes`
lists.  A noise entry is `[ifn_, amp]`, an echo entry is `[ifn_, it, amp]`. -/
structure ParseState where
  ifn : Int
  noise : List (Int × ℕ)
  echoes : List (Int × ℕ × ℕ)
deriving DecidableEq, Repr

/-- One iteration of the loop in `__parse_ionogram` over a 4-byte group
`(w₁, w₂)`: a cluster header advances `ifn_` (the encoded 15-bit frequency
`w₁ & 32767` is stored in the dead local `ifn` and never used); a non-header
group with second word 1 is a noise sample, any other non-header group is an
echo sample. -/
def parseStep (s : ParseState) (g : ℕ × ℕ) : ParseState :=
  if isHeader g.1 then { s with ifn := s.ifn + 1 }
  else if g.2 == 1 then { s with noise := s.noise ++ [(s.ifn, g.1)] }
  else { s with echoes := s.echoes ++ [(s.ifn, g.2, g.1)] }

def parseIonogram (body : List (ℕ × ℕ)) : ParseState :=
  body.foldl parseStep ⟨-1, [], []⟩

/-- Number of cluster-header groups in a body segment. -/
def headerCount (l : List (ℕ × ℕ)) : ℕ := (l.filter (fun g => isHeader g.1)).length

/-! ## Cluster codec: the body written by `Ionogram.writeion`

`writeion` reconstructs the dense matrix `amp = get_ionogram()` (shape
`nheights × nfrequences`, NaN where no echo; entries assigned in echo-list
order, so the last echo at a cell wins, and only echoes with height index
below `nheights` are placed) and writes, per frequency column: the header
word `(ifn+1) | 32768` with the alignment word 1, the noise amplitude
`noise[ifn][1]` with the alignment word 1, then `(amp, it)` for every
non-NaN cell in ascending height order. -/

def headerWord (ifn : ℕ) : ℕ := (ifn + 1) ||| 32768

/-- The dense-matrix cell `amp[it, ifn]` of `get_ionogram`: the amplitude of
the last echo in the list at `(ifn, it)` with height below `nheights`
(matrix cells not written stay NaN = `none`). -/
def denseCell (nheights : ℕ) (echoes : List (Int × ℕ × ℕ)) (it ifn : ℕ) : Option ℕ :=
  ((echoes.filter
      (fun e => decide (e.2.1 < nheights) && e.2.1 == it && e.1 == (ifn : Int))).map
    (fun e => e.2.2)).getLast?

/-- The `(amplitude, height)` groups of one frequency column, heights ascending. -/
def colCells (nheights : ℕ) (echoes : List (Int × ℕ × ℕ)) (ifn : ℕ) : List (ℕ × ℕ) :=
  (List.range nheights).filterMap fun it => (denseCell nheights echoes it ifn).map (fun a => (a, it))

def encodeColumn (nheights : ℕ) (noiseVal : ℕ) (echoes : List (Int × ℕ × ℕ)) (ifn : ℕ) :
    List (ℕ × ℕ) :=
  (headerWord ifn, 1) :: (noiseVal, 1) :: colCells nheights echoes ifn

/-- The body `writeion` emits: one column per frequency index
`0 .. nfrequences-1`, the noise amplitude taken positionally from row `ifn`
of the noise list (`noise[ifn, 1]`). -/
def encodeBody (nfrequences nheights : ℕ) (noise : List (Int × ℕ))
    (echoes : List (Int × ℕ × ℕ)) : List (ℕ × ℕ) :=
  (List.range nfrequences).flatMap fun ifn =>
    encodeColumn nheights (((noise.get? ifn).map (fun p => p.2)).getD 0) echoes ifn

/-! ## Basic parse lemmas -/

theorem isHeader_of_lt (w : ℕ) (h : w < 32768) : isHeader w = false := by
  have h2 : w / 256 < 2 ^ 7 := Nat.div_lt_of_lt_mul (by omega)
  have ht : (w / 256).testBit 7 = false := Nat.testBit_lt_two_pow h2
  simp only [isHeader, beq_eq_false_iff_ne, ne_eq]
  intro hc
  have hb : ((w / 256) &&& 128).testBit 7 = (128 : ℕ).testBit 7 := by rw [hc]
  rw [Nat.testBit_and, ht] at hb
  exact absurd hb.symm (by decide)

theorem isHeader_headerWord (ifn : ℕ) : isHeader (headerWord ifn) = true := by
  have h15 : (headerWord ifn).testBit 15 = true := by
    rw [headerWord, Nat.testBit_or, show (32768 : ℕ) = 2 ^ 15 from by norm_num,
      Nat.testBit_two_pow_self, Bool.or_true]
  have h7 : (headerWord ifn / 256).testBit 7 = true := by
    have hdiv : headerWord ifn / 256 = headerWord ifn >>> 8 := by
      rw [Nat.shiftRight_eq_div_pow]
    rw [hdiv, Nat.testBit_shiftRight, show 8 + 7 = 15 from rfl, h15]
  simp only [isHeader, beq_iff_eq]
  apply Nat.eq_of_testBit_eq
  intro i
  rcases eq_or_ne i 7 with rfl | hi
  · simp [Nat.testBit_and, h7]
  · have h128 : (128 : ℕ) = 2 ^ 7 := by norm_num
    rw [Nat.testBit_and, h128, Nat.testBit_two_pow]
    simp [Ne.symm hi]

theorem parse_foldl_append (s : ParseState) (l₁ l₂ : List (ℕ × ℕ)) :
    (l₁ ++ l₂).foldl parseStep s = l₂.foldl parseStep (l₁.foldl parseStep s) :=
  List.foldl_append ..

theorem parseStep_header (s : ParseState) (g : ℕ × ℕ) (h : isHeader g.1 = true) :
    parseStep s g = { s with ifn := s.ifn + 1 } := by
  simp [parseStep, h]

theorem parseStep_noise (s : ParseState) (g : ℕ × ℕ) (h : isHeader g.1 = false)
    (h2 : g.2 = 1) : parseStep s g = { s with noise := s.noise ++ [(s.ifn, g.1)] } := by
  simp [parseStep, h, h2]

theorem parseStep_echo (s : ParseState) (g : ℕ × ℕ) (h : isHeader g.1 = false)
    (h2 : g.2 ≠ 1) : parseStep s g = { s with echoes := s.echoes ++ [(s.ifn, g.2, g.1)] } := by
  simp [parseStep, h, h2]

/-- Folding a run of non-header echo groups appends the corresponding echoes,
all attributed to the current counter value. -/
theorem parse_foldl_echo_groups (gs : List (ℕ × ℕ)) :
    ∀ s : ParseState, (∀ g ∈ gs, isHeader g.1 = false ∧ g.2 ≠ 1) →
      gs.foldl parseStep s =
        { s with echoes := s.echoes ++ gs.map (fun g => (s.ifn, g.2, g.1)) } := by
  induction gs with
  | nil => intro s _; simp
  | cons g gs ih =>
    intro s hg
    have hgh := hg g (List.mem_cons_self ..)
    rw [List.foldl_cons, parseStep_echo s g hgh.1 hgh.2,
      ih _ (fun x hx => hg x (List.mem_cons_of_mem _ hx))]
    simp

theorem parseIonogram_append_single (body : List (ℕ × ℕ)) (g : ℕ × ℕ) :
    parseIonogram (body ++ [g]) = parseStep (parseIonogram body) g := by
  unfold parseIonogram
  rw [List.foldl_append, List.foldl_cons, List.foldl_nil]

theorem parseStep_ifn (s : ParseState) (g : ℕ × ℕ) :
    (parseStep s g).ifn = if isHeader g.1 then s.ifn + 1 else s.ifn := by
  unfold parseStep
  split
  · rfl
  · split <;> rfl

theorem headerCount_cons (g : ℕ × ℕ) (gs : List (ℕ × ℕ)) :
    headerCount (g :: gs) = (if isHeader g.1 then 1 else 0) + headerCount gs := by
  unfold headerCount
  rcases h : isHeader g.1 with _ | _ <;> simp [List.filter_cons, h] <;> omega

theorem parse_foldl_ifn (l : List (ℕ × ℕ)) :
    ∀ s : ParseState, (l.foldl parseStep s).ifn = s.ifn + (headerCount l : Int) := by
  induction l with
  | nil => intro s; simp [headerCount]
  | cons g gs ih =>
    intro s
    rw [List.foldl_cons, ih, parseStep_ifn, headerCount_cons]
    by_cases h : isHeader g.1 <;> simp [h] <;> omega

theorem parse_foldl_noise_extend (l : List (ℕ × ℕ)) :
    ∀ s : ParseState, ∃ t, (l.foldl parseStep s).noise = s.noise ++ t := by
  induction l with
  | nil => intro s; exact ⟨[], by simp⟩
  | cons g gs ih =>
    intro s
    obtain ⟨t, ht⟩ := ih (parseStep s g)
    rw [List.foldl_cons, ht]
    unfold parseStep
    split
    · exact ⟨t, rfl⟩
    · split
      · exact ⟨(s.ifn, g.1) :: t, by simp⟩
      · exact ⟨t, rfl⟩

theorem parse_foldl_echoes_extend (l : List (ℕ × ℕ)) :
    ∀ s : ParseState, ∃ t, (l.foldl parseStep s).echoes = s.echoes ++ t := by
  induction l with
  | nil => intro s; exact ⟨[], by simp⟩
  | cons g gs ih =>
    intro s
    obtain ⟨t, ht⟩ := ih (parseStep s g)
    rw [List.foldl_cons, ht]
    unfold parseStep
    split
    · exact ⟨t, rfl⟩
    · split
      · exact ⟨t, rfl⟩
      · exact ⟨(s.ifn, g.2, g.1) :: t, by simp⟩

theorem parseIonogram_ifn (body : List (ℕ × ℕ)) :
    (parseIonogram body).ifn = (headerCount body : Int) - 1 := by
  unfold parseIonogram
  rw [parse_foldl_ifn]
  show -1 + (headerCount body : Int) = _
  ring

/-! ## Round-trip lemmas: `writeion` body followed by `__parse_ionogram` -/

theorem getLast?_of_all_eq {α : Type} (l : List α) (v : α) :
    l ≠ [] → (∀ x ∈ l, x = v) → l.getLast? = some v := by
  induction l with
  | nil => intro h; exact absurd rfl h
  | cons x t ih =>
    intro _ hall
    cases t with
    | nil => rw [hall x (by simp)]; rfl
    | cons y r =>
      rw [List.getLast?_cons_cons]
      exact ih (by simp) (fun z hz => hall z (List.mem_cons_of_mem _ hz))

theorem colCells_mem (nh : ℕ) (echoes : List (Int × ℕ × ℕ)) (ifn : ℕ) (g : ℕ × ℕ)
    (hg : g ∈ colCells nh echoes ifn) :
    g.2 < nh ∧ denseCell nh echoes g.2 ifn = some g.1 := by
  unfold colCells at hg
  rw [List.mem_filterMap] at hg
  obtain ⟨it, hit, hcell⟩ := hg
  rw [Option.map_eq_some'] at hcell
  obtain ⟨a, ha, hga⟩ := hcell
  cases hga
  exact ⟨List.mem_range.mp hit, ha⟩

theorem denseCell_some_mem (nh : ℕ) (echoes : List (Int × ℕ × ℕ)) (it ifn a : ℕ)
    (h : denseCell nh echoes it ifn = some a) :
    ((ifn : Int), it, a) ∈ echoes ∧ it < nh := by
  unfold denseCell at h
  have hmem : a ∈ (echoes.filter
      (fun e => decide (e.2.1 < nh) && e.2.1 == it && e.1 == (ifn : Int))).map
      (fun e => e.2.2) := List.mem_of_getLast?_eq_some h
  rw [List.mem_map] at hmem
  obtain ⟨e, he, hae⟩ := hmem
  rw [List.mem_filter] at he
  obtain ⟨hmem, hp⟩ := he
  simp only [Bool.and_eq_true, decide_eq_true_eq, beq_iff_eq] at hp
  obtain ⟨⟨h1, h2⟩, h3⟩ := hp
  have : ((ifn : Int), it, a) = e := by
    rcases e with ⟨f, h0, amp⟩
    simp only at h1 h2 h3 hae
    rw [h2, h3, hae]
  rw [this]
  exact ⟨hmem, h2 ▸ h1⟩

theorem denseCell_of_mem (nh : ℕ) (echoes : List (Int × ℕ × ℕ)) (it ifn a : ℕ)
    (hpw : echoes.Pairwise (fun e1 e2 => (e1.1, e1.2.1) ≠ (e2.1, e2.2.1)))
    (hmem : ((ifn : Int), it, a) ∈ echoes) (hnh : it < nh) :
    denseCell nh echoes it ifn = some a := by
  unfold denseCell
  set p : Int × ℕ × ℕ → Bool :=
    fun e => decide (e.2.1 < nh) && e.2.1 == it && e.1 == (ifn : Int) with hp
  have hpv : p ((ifn : Int), it, a) = true := by simp [hp, hnh]
  have hmemF : ((ifn : Int), it, a) ∈ echoes.filter p := List.mem_filter.mpr ⟨hmem, hpv⟩
  have hall : ∀ x ∈ echoes.filter p, x = ((ifn : Int), it, a) := by
    intro x hx
    rw [List.mem_filter] at hx
    obtain ⟨hxe, hxp⟩ := hx
    simp only [hp, Bool.and_eq_true, decide_eq_true_eq, beq_iff_eq] at hxp
    by_contra hne
    have hsymm : Symmetric (fun e1 e2 : Int × ℕ × ℕ => (e1.1, e1.2.1) ≠ (e2.1, e2.2.1)) :=
      fun _ _ h heq => h heq.symm
    have := (hpw.forall hsymm) hxe hmem hne
    exact this (by rw [hxp.1.2, hxp.2])
  have hne : echoes.filter p ≠ [] := by
    intro hnil
    rw [hnil] at hmemF
    exact absurd hmemF (List.not_mem_nil _)
  have hmap : ∀ y ∈ (echoes.filter p).map (fun e => e.2.2), y = a := by
    intro y hy
    rw [List.mem_map] at hy
    obtain ⟨e, he, hye⟩ := hy
    rw [hall e he] at hye
    exact hye.symm
  exact getLast?_of_all_eq _ a (by simpa using hne) hmap

theorem parse_encodeColumn (nh v : ℕ) (echoes : List (Int × ℕ × ℕ)) (ifn : ℕ)
    (s : ParseState) (hv : v < 32768)
    (hcells : ∀ g ∈ colCells nh echoes ifn, g.1 < 32768 ∧ g.2 ≠ 1) :
    (encodeColumn nh v echoes ifn).foldl parseStep s =
      { ifn := s.ifn + 1,
        noise := s.noise ++ [(s.ifn + 1, v)],
        echoes := s.echoes ++ (colCells nh echoes ifn).map (fun g => (s.ifn + 1, g.2, g.1)) } := by
  unfold encodeColumn
  rw [List.foldl_cons, parseStep_header s _ (isHeader_headerWord ifn), List.foldl_cons,
    parseStep_noise _ _ (isHeader_of_lt v hv) rfl,
    parse_foldl_echo_groups _ _
      (fun g hg => ⟨isHeader_of_lt g.1 (hcells g hg).1, (hcells g hg).2⟩)]

theorem parse_encodeBody_aux (nh : ℕ) (noise : List (Int × ℕ)) (echoes : List (Int × ℕ × ℕ))
    (hnv : ∀ i : ℕ, (((noise.get? i).map (fun p => p.2)).getD 0) < 32768)
    (hcells : ∀ i : ℕ, ∀ g ∈ colCells nh echoes i, g.1 < 32768 ∧ g.2 ≠ 1) :
    ∀ (k a : ℕ) (s : ParseState), s.ifn = (a : Int) - 1 →
    ((List.range' a k).flatMap fun i =>
        encodeColumn nh (((noise.get? i).map (fun p => p.2)).getD 0) echoes i).foldl parseStep s =
      { ifn := (a : Int) + k - 1,
        noise := s.noise ++
          (List.range' a k).map (fun (i : ℕ) => ((i : Int), ((noise.get? i).map (fun p => p.2)).getD 0)),
        echoes := s.echoes ++ (List.range' a k).flatMap
          (fun (i : ℕ) => (colCells nh echoes i).map (fun g => ((i : Int), g.2, g.1))) } := by
  intro k
  induction k with
  | zero =>
    intro a s hs
    cases s with
    | mk i n e =>
      simp only at hs
      subst hs
      simp only [List.range'_zero, List.flatMap_nil, List.foldl_nil, List.map_nil,
        List.append_nil, ParseState.mk.injEq]
      refine ⟨by push_cast; ring, trivial, trivial⟩
  | succ k ih =>
    intro a s hs
    have hifn : s.ifn + 1 = (a : Int) := by rw [hs]; ring
    rw [List.range'_succ, List.flatMap_cons, List.foldl_append,
      parse_encodeColumn nh _ echoes a s (hnv a) (hcells a),
      ih (a + 1) _ (by simp only [hifn]; push_cast; ring)]
    rw [List.map_cons, List.flatMap_cons]
    simp only [hifn, ParseState.mk.injEq, List.append_assoc, List.cons_append,
      List.singleton_append, List.nil_append]
    refine ⟨by push_cast; ring, trivial, trivial⟩

theorem parse_encodeBody (nf nh : ℕ) (noise : List (Int × ℕ)) (echoes : List (Int × ℕ × ℕ))
    (hnv : ∀ i : ℕ, (((noise.get? i).map (fun p => p.2)).getD 0) < 32768)
    (hcells : ∀ i : ℕ, ∀ g ∈ colCells nh echoes i, g.1 < 32768 ∧ g.2 ≠ 1) :
    parseIonogram (encodeBody nf nh noise echoes) =
      { ifn := (nf : Int) - 1,
        noise := (List.range nf).map
          (fun (i : ℕ) => ((i : Int), ((noise.get? i).map (fun p => p.2)).getD 0)),
        echoes := (List.range nf).flatMap
          (fun (i : ℕ) => (colCells nh echoes i).map (fun g => ((i : Int), g.2, g.1))) } := by
  unfold parseIonogram encodeBody
  rw [List.range_eq_range',
    parse_encodeBody_aux nh noise echoes hnv hcells nf 0 _ (by norm_num)]
  simp

/-- C1 counterexample: the Record with `frequency_count = 1`,
`height_count = 3`, `noise = [(0, 5)]` and the single echo `(0, 2, 32768)`
satisfies the claim's validity premises (integral values, indices in range,
height ≠ 1, one noise entry per frequency index), yet the echo does not
survive the encode/decode round trip: the amplitude word `32768 = 0x8000`
has the cluster-flag bit set, so the parser re-reads the echo group as a
cluster header and the decoded echo set is empty. -/
theorem writeion_roundtrip_cex :
    ((0 : Int), (2 : ℕ), (32768 : ℕ)) ∈ ([((0 : Int), 2, 32768)] : List (Int × ℕ × ℕ)) ∧
    ((0 : Int), (2 : ℕ), (32768 : ℕ)) ∉
      (parseIonogram (encodeBody 1 3 [((0 : Int), 5)] [((0 : Int), 2, 32768)])).echoes := by
  decide

/-- C1 (amended): decode of encode reproduces the noise vector exactly and
the echo set exactly (as an unordered set of triples), for every Record with
valid geometry — provided additionally that all amplitudes and noise values
are below 2^15 (a value with the top bit set is re-parsed as a cluster
header, as the counterexample shows), at most one echo occupies each
(frequency, height) position, and the counts fit the 16-bit words
`writeion` emits. -/
theorem writeion_roundtrip (nf nh : ℕ) (noise : List (Int × ℕ)) (echoes : List (Int × ℕ × ℕ))
    (hnf : nf ≤ 32767) (hnh : nh ≤ 65536)
    (hlen : noise.length = nf)
    (hlab : ∀ (i : ℕ) (p : Int × ℕ), noise.get? i = some p → p.1 = (i : Int))
    (hnval : ∀ p ∈ noise, p.2 < 32768)
    (hef : ∀ e ∈ echoes, 0 ≤ e.1 ∧ e.1 < (nf : Int))
    (heh : ∀ e ∈ echoes, e.2.1 < nh ∧ e.2.1 ≠ 1)
    (hea : ∀ e ∈ echoes, e.2.2 < 32768)
    (hpw : echoes.Pairwise (fun e1 e2 => (e1.1, e1.2.1) ≠ (e2.1, e2.2.1))) :
    (parseIonogram (encodeBody nf nh noise echoes)).noise = noise ∧
    ∀ t, t ∈ (parseIonogram (encodeBody nf nh noise echoes)).echoes ↔ t ∈ echoes := by
  have hnv : ∀ i : ℕ, (((noise.get? i).map (fun p => p.2)).getD 0) < 32768 := by
    intro i
    cases hg : noise.get? i with
    | none => simp
    | some p =>
      simpa using hnval p (List.get?_mem hg)
  have hcells : ∀ i : ℕ, ∀ g ∈ colCells nh echoes i, g.1 < 32768 ∧ g.2 ≠ 1 := by
    intro i g hg
    obtain ⟨hlt, hcell⟩ := colCells_mem nh echoes i g hg
    obtain ⟨hmem, _⟩ := denseCell_some_mem nh echoes g.2 i g.1 hcell
    exact ⟨hea _ hmem, (heh _ hmem).2⟩
  rw [parse_encodeBody nf nh noise echoes hnv hcells]
  constructor
  · apply List.ext_get?
    intro n
    rw [List.get?_map]
    by_cases hn : n < nf
    · rw [List.get?_range hn]
      cases hg : noise.get? n with
      | none =>
        have : noise.length ≤ n := List.get?_eq_none.mp hg
        omega
      | some p =>
        have hp1 := hlab n p hg
        simp only [Option.map_some']
        rw [hg]
        simp only [Option.map_some', Option.getD_some]
        rcases p with ⟨p1, p2⟩
        simp only at hp1
        rw [hp1]
    · have h1 : (List.range nf).get? n = none := by
        rw [List.get?_eq_none, List.length_range]
        omega
      have h2 : noise.get? n = none := by
        rw [List.get?_eq_none]
        omega
      rw [h1, h2]
      rfl
  · intro t
    rw [List.mem_flatMap]
    constructor
    · rintro ⟨i, hi, ht⟩
      rw [List.mem_map] at ht
      obtain ⟨g, hg, rfl⟩ := ht
      obtain ⟨hlt, hcell⟩ := colCells_mem nh echoes i g hg
      exact (denseCell_some_mem nh echoes g.2 i g.1 hcell).1
    · intro ht
      have h0 := (hef t ht).1
      have hcast : ((t.1.toNat : ℕ) : Int) = t.1 := Int.toNat_of_nonneg h0
      refine ⟨t.1.toNat, ?_, ?_⟩
      · rw [List.mem_range]
        have := (hef t ht).2
        omega
      · rw [List.mem_map]
        refine ⟨(t.2.2, t.2.1), ?_, ?_⟩
        · unfold colCells
          rw [List.mem_filterMap]
          refine ⟨t.2.1, List.mem_range.mpr (heh t ht).1, ?_⟩
          have hmem2 : ((t.1.toNat : Int), t.2.1, t.2.2) ∈ echoes := by
            rw [hcast]
            exact ht
          rw [denseCell_of_mem nh echoes t.2.1 t.1.toNat t.2.2 hpw hmem2 (heh t ht).1]
          rfl
        · show ((t.1.toNat : Int), t.2.1, t.2.2) = t
          rw [hcast]

/-- Witness for `writeion_roundtrip` at a concrete two-column Record. -/
theorem writeion_roundtrip_witness :
    (parseIonogram (encodeBody 2 11 [((0 : Int), 3), (1, 4)]
        [((0 : Int), 10, 42), (1, 0, 7)])).noise = [((0 : Int), 3), (1, 4)] ∧
    ∀ t, t ∈ (parseIonogram (encodeBody 2 11 [((0 : Int), 3), (1, 4)]
        [((0 : Int), 10, 42), (1, 0, 7)])).echoes ↔
      t ∈ ([((0 : Int), 10, 42), (1, 0, 7)] : List (Int × ℕ × ℕ)) :=
  writeion_roundtrip 2 11 [((0 : Int), 3), (1, 4)] [((0 : Int), 10, 42), (1, 0, 7)]
    (by norm_num) (by norm_num) (by decide)
    (by
      intro i p hp
      rcases i with _ | _ | i
      · cases hp; rfl
      · cases hp; rfl
      · cases hp)
    (by decide) (by decide) (by decide) (by decide) (by decide)

/-! ## `writeion`'s public gating

`writeion` returns silently (printing a message, raising nothing) when the
ionogram was never loaded, when no filename is given, or when the
destination file exists and the `rewrite` flag is false; only otherwise
does it open the file and write the passport and the encoded body. -/

def writeion (loaded : Bool) (filename : Option String) (fileExists : String → Bool)
    (rewriteFlag : Bool) (nf nh : ℕ) (noise : List (Int × ℕ))
    (echoes : List (Int × ℕ × ℕ)) : Option (String × List (ℕ × ℕ)) :=
  if loaded ≠ true then none
  else
    match filename with
    | none => none
    | some fn =>
      if fileExists fn = true ∧ rewriteFlag = false then none
      else some (fn, encodeBody nf nh noise echoes)

/-- C10: calling `writeion` on a Record never loaded writes nothing
(returns before touching the filesystem, raising nothing — the model is a
total function); and with an existing destination and `rewrite = False` it
likewise returns without writing. -/
theorem writeion_gating_noop :
    (∀ (filename : Option String) (fe : String → Bool) (rwf : Bool) (nf nh : ℕ)
      (noise : List (Int × ℕ)) (echoes : List (Int × ℕ × ℕ)),
      writeion false filename fe rwf nf nh noise echoes = none) ∧
    (∀ (fn : String) (fe : String → Bool) (nf nh : ℕ)
      (noise : List (Int × ℕ)) (echoes : List (Int × ℕ × ℕ)), fe fn = true →
      writeion true (some fn) fe false nf nh noise echoes = none) := by
  constructor
  · intro filename fe rwf nf nh noise echoes
    rfl
  · intro fn fe nf nh noise echoes hfe
    simp [writeion, hfe]

/-! ## The record algebra in the log-amplitude domain

Amplitudes and noise levels are Python floats, modelled as `ℝ`. -/

noncomputable section

/-- `10**(x/20)`: linear-domain amplitude of a dB value. -/
def lin (x : ℝ) : ℝ := (10 : ℝ) ^ (x / 20)

/-- `20*np.log10(x)`. -/
def dB (x : ℝ) : ℝ := 20 * Real.logb 10 x

/-- The fields of `Ionogram` consumed by the experimental operators `==`,
`+`, `+=` and `/`.  `delay` models the instance attribute `self.delay` read
by `__eq__`: no method of the class ever assigns it, so on every instance
built by the class it is absent (`none`), and reading it raises
`AttributeError`. -/
structure RecordR where
  noise : List (Int × ℝ)
  echoes : List (Int × ℕ × ℝ)
  freq0 : Int := 0
  freqN : Int := 0
  freq_step : Int := 0
  maxheight : ℝ := 0
  imaxheight : ℕ := 0
  delay : Option Int := none

/-- Python list indexing `l[i]`: negative indices wrap once from the end;
anything out of `-len l ≤ i < len l` raises `IndexError` (`none`). -/
def pyGet {α : Type} (l : List α) (i : Int) : Option α :=
  if 0 ≤ i then l.get? i.toNat
  else if 0 ≤ i + l.length then l.get? (i + l.length).toNat else none

/-- First loop of `__add__`/`__iadd__`: for each index of `other.noise`,
`self.noise[i][1] = 20*log10(10**(self.noise[i][1]/20) + 10**(e[1]/20))`.
The write raises `IndexError` as soon as `other.noise` is longer than
`self.noise`; when it is shorter, the tail of `self.noise` is untouched. -/
def combineNoise : List (Int × ℝ) → List (Int × ℝ) → Except Unit (List (Int × ℝ))
  | an, [] => .ok an
  | [], _ :: _ => .error ()
  | (f, x) :: an, (_, y) :: bn =>
    (combineNoise an bn).map (fun r => (f, dB (lin x + lin y)) :: r)

/-- An echo's `(frequency index, height index)` pair, `e[:2]`. -/
def echoPos (e : Int × ℕ × ℝ) : Int × ℕ := (e.1, e.2.1)

/-- The inner scan of the echo loop: find the first accumulated echo at
`e`'s position (`e1[:2] == e[:2]`); replace its amplitude by the dB power
sum when that sum exceeds the (already combined) noise floor `nf`, pop it
otherwise.  Returns the rewritten list and the `echoe_exist` flag. -/
def insertEcho (nf : ℝ) (e : Int × ℕ × ℝ) :
    List (Int × ℕ × ℝ) → List (Int × ℕ × ℝ) × Bool
  | [] => ([], false)
  | e1 :: rest =>
    if echoPos e1 = echoPos e then
      (if dB (lin e1.2.2 + lin e.2.2) > nf then
        (e1.1, e1.2.1, dB (lin e1.2.2 + lin e.2.2)) :: rest
       else rest, true)
    else
      let r := insertEcho nf e rest
      (e1 :: r.1, r.2)

/-- The echo loop of `__add__`/`__iadd__` over `other.echoes`: each echo
reads the combined noise floor at its frequency index
(`self.noise[e[0]][1]`, an `IndexError` when out of range); an unmatched
echo is appended only when its amplitude exceeds that floor. -/
def addEchoes (noise : List (Int × ℝ)) :
    List (Int × ℕ × ℝ) → List (Int × ℕ × ℝ) → Except Unit (List (Int × ℕ × ℝ))
  | acc, [] => .ok acc
  | acc, e :: bs =>
    match pyGet noise e.1 with
    | none => .error ()
    | some nfp =>
      let r := insertEcho nfp.2 e acc
      if r.2 then addEchoes noise r.1 bs
      else if e.2.2 > nfp.2 then addEchoes noise (acc ++ [e]) bs
      else addEchoes noise acc bs

/-- `__add__` — and the byte-for-byte identical body of `__iadd__` (the two
differ only in mutating a deepcopy versus `self`, immaterial in a
functional embedding): combine the noise vectors positionally, then fold
`other`'s echoes into the copy's echoes with noise-floor gating.  All other
fields come from the left operand. -/
def addR (a b : RecordR) : Except Unit RecordR :=
  match combineNoise a.noise b.noise with
  | .error u => .error u
  | .ok n =>
    match addEchoes n a.echoes b.echoes with
    | .error u => .error u
    | .ok es => .ok { a with noise := n, echoes := es }

/-- Helper for `np.argmax`: running first-maximum scan (`y > bv` updates,
ties keep the earlier index). -/
def argmaxGo : ℕ → ℕ → ℕ → List ℕ → ℕ
  | bi, _, _, [] => bi
  | bi, bv, i, y :: ys => if y > bv then argmaxGo i y (i + 1) ys else argmaxGo bi bv (i + 1) ys

/-- `np.argmax`: index of the first occurrence of the maximum.  (`np.argmax`
of an empty array raises `ValueError`; `__truediv__` requires a non-empty
echo list, so the `[]` default 0 is unreachable there.) -/
def np_argmax : List ℕ → ℕ
  | [] => 0
  | x :: xs => argmaxGo 0 x 1 xs

/-- Result of `__truediv__`: echo amplitudes may have become `np.nan`
(`none`); noise stays real (clamped at 0). -/
structure DivRecord where
  noise : List (Int × ℝ)
  echoes : List (Int × ℕ × Option ℝ)

/-- `__truediv__`: `index_max = np.argmax(np.array(c.echoes)[:, 1])` —
column 1 of an echo row `[ifn, it, amp]` is the HEIGHT index (column 2 is
the amplitude), so the echo preserved as reference is the first echo of
maximal height.  Every noise value is reduced by `20*log10(scalar)` and
clamped at 0; every echo except `index_max` is reduced likewise and set to
NaN when negative; echo `index_max` is assigned amplitude 1 (1 is never
negative, so it survives the NaN check). -/
def truediv (r : RecordR) (scalar : ℝ) : DivRecord :=
  let im := np_argmax (r.echoes.map (fun e => e.2.1))
  { noise := r.noise.map (fun p =>
      (p.1, if p.2 - dB scalar < 0 then 0 else p.2 - dB scalar)),
    echoes := r.echoes.enum.map (fun q =>
      let a : ℝ := if q.1 ≠ im then q.2.2.2 - dB scalar else 1
      (q.2.1, q.2.2.1, if a < 0 then none else some a)) }

/-- `__eq__`: five geometry checks accumulate into `res`, then the final
check compares `self.delay != other.delay`.  Reading `self.delay` raises
`AttributeError` whenever the attribute is absent — which it is on every
instance the class builds. -/
def eqR (a b : RecordR) : Except Unit Bool :=
  let r1 := if a.noise.length ≠ b.noise.length then false else true
  let r2 := if a.freq0 ≠ b.freq0 then false else r1
  let r3 := if a.freqN ≠ b.freqN then false else r2
  let r4 := if a.freq_step ≠ b.freq_step then false else r3
  let r5 := if |a.maxheight / (a.imaxheight : ℝ) - b.maxheight / (b.imaxheight : ℝ)| > 0.01
    then false else r4
  match a.delay, b.delay with
  | some da, some db => .ok (if da ≠ db then false else r5)
  | _, _ => .error ()

def lightVelocity : ℝ := 3.0e8

/-- The `max_height` derivation at the end of `__parse_passport`:
`light_velocity * band_width / chirp_rate / 1000` in mode `"НЗ"`, with an
extra division by 2.0 (before the `/1000`) in every other mode. -/
def deriveMaxheight (mode : String) (band_width chirp_rate : Int) : ℝ :=
  if mode = "НЗ" then lightVelocity * (band_width : ℝ) / (chirp_rate : ℝ) / 1000
  else lightVelocity * (band_width : ℝ) / (chirp_rate : ℝ) / 2.0 / 1000

end

/-- C7: for every successfully derived passport geometry (`chirp_rate ≠ 0`,
the derivation raises `ZeroDivisionError` otherwise and the record is not
loaded), `max_height` equals `lightSpeed × band_width / chirp_rate / 1000`
when `mode = "НЗ"`, and that same value additionally divided by 2 for every
other mode, with `lightSpeed = 3.0e8`. -/
theorem maxheight_mode_formula (mode : String) (bw cr : Int) (hcr : cr ≠ 0) :
    deriveMaxheight mode bw cr =
      if mode = "НЗ" then lightVelocity * (bw : ℝ) / (cr : ℝ) / 1000
      else (lightVelocity * (bw : ℝ) / (cr : ℝ) / 1000) / 2 := by
  unfold deriveMaxheight
  split
  · rfl
  · rw [div_right_comm]
    norm_num

/-- Witness for `maxheight_mode_formula` in the vertical-sounding mode. -/
theorem maxheight_mode_formula_witness :
    (2 : Int) ≠ 0 ∧
    deriveMaxheight "ВЗ" 100 2 =
      if "ВЗ" = "НЗ" then lightVelocity * ((100 : Int) : ℝ) / ((2 : Int) : ℝ) / 1000
      else (lightVelocity * ((100 : Int) : ℝ) / ((2 : Int) : ℝ) / 1000) / 2 :=
  ⟨by decide, maxheight_mode_formula "ВЗ" 100 2 (by decide)⟩

/-- A record shaped like one `readion` has loaded: in particular `delay`
was never assigned by any method of the class. -/
noncomputable def sampleRec : RecordR :=
  { noise := [((0 : Int), 5)], echoes := [((0 : Int), 10, 42)], freq0 := 2000,
    freqN := 10000, freq_step := 25, maxheight := 1500, imaxheight := 10, delay := none }

/-- C5 (code bug): `==` on two loaded records does not return a boolean —
line 107 of `ion_class.py` reads `self.delay`, an attribute no method of
`Ionogram` ever assigns, so the comparison always raises `AttributeError`
after the five geometry checks. -/
theorem eq_raises_on_delay :
    sampleRec.delay = none ∧ eqR sampleRec sampleRec = Except.error () :=
  ⟨rfl, rfl⟩

/-! ## `__truediv__` and the `np.argmax` reference echo -/

theorem argmaxGo_cases (ys : List ℕ) : ∀ bi bv i : ℕ,
    (argmaxGo bi bv i ys = bi ∧ ∀ x ∈ ys, x ≤ bv) ∨
    (∃ j x, ys.get? j = some x ∧ argmaxGo bi bv i ys = i + j ∧ bv < x ∧
      (∀ y ∈ ys, y ≤ x) ∧ (∀ j' y, j' < j → ys.get? j' = some y → y < x)) := by
  induction ys with
  | nil =>
    intro bi bv i
    left
    exact ⟨rfl, by simp⟩
  | cons y ys ih =>
    intro bi bv i
    by_cases hy : y > bv
    · have harg : argmaxGo bi bv i (y :: ys) = argmaxGo i y (i + 1) ys := by
        simp [argmaxGo, hy]
      rcases ih i y (i + 1) with ⟨heq, hle⟩ | ⟨j, x, hjx, heq, hlt, hmax, hfirst⟩
      · right
        refine ⟨0, y, rfl, by rw [harg, heq]; omega, hy, ?_, ?_⟩
        · intro z hz
          rcases List.mem_cons.mp hz with rfl | hz2
          · exact le_refl z
          · exact hle z hz2
        · intro j' z hj' _
          omega
      · right
        refine ⟨j + 1, x, by simpa using hjx, ?_, lt_trans hy hlt, ?_, ?_⟩
        · rw [harg, heq]
          omega
        · intro z hz
          rcases List.mem_cons.mp hz with rfl | hz2
          · exact le_of_lt hlt
          · exact hmax z hz2
        · intro j' z hj' hz
          rcases j' with _ | j''
          · have hyz : y = z := by simpa using hz
            exact hyz ▸ hlt
          · have hz' : ys.get? j'' = some z := by simpa using hz
            exact hfirst j'' z (by omega) hz'
    · have harg : argmaxGo bi bv i (y :: ys) = argmaxGo bi bv (i + 1) ys := by
        simp [argmaxGo, hy]
      have hyle : y ≤ bv := by omega
      rcases ih bi bv (i + 1) with ⟨heq, hle⟩ | ⟨j, x, hjx, heq, hlt, hmax, hfirst⟩
      · left
        refine ⟨by rw [harg, heq], ?_⟩
        intro z hz
        rcases List.mem_cons.mp hz with rfl | hz2
        · exact hyle
        · exact hle z hz2
      · right
        refine ⟨j + 1, x, by simpa using hjx, ?_, hlt, ?_, ?_⟩
        · rw [harg, heq]
          omega
        · intro z hz
          rcases List.mem_cons.mp hz with rfl | hz2
          · exact le_of_lt (lt_of_le_of_lt hyle hlt)
          · exact hmax z hz2
        · intro j' z hj' hz
          rcases j' with _ | j''
          · have hyz : y = z := by simpa using hz
            exact hyz ▸ lt_of_le_of_lt hyle hlt
          · have hz' : ys.get? j'' = some z := by simpa using hz
            exact hfirst j'' z (by omega) hz'

/-- `np.argmax` returns an index of the maximum, and every strictly earlier
index holds a strictly smaller value (first occurrence). -/
theorem np_argmax_spec (l : List ℕ) (hne : l ≠ []) :
    ∃ m, l.get? (np_argmax l) = some m ∧ (∀ j x, l.get? j = some x → x ≤ m) ∧
      (∀ j x, j < np_argmax l → l.get? j = some x → x < m) := by
  rcases l with _ | ⟨x, xs⟩
  · exact absurd rfl hne
  · have ham : np_argmax (x :: xs) = argmaxGo 0 x 1 xs := rfl
    rcases argmaxGo_cases xs 0 x 1 with ⟨heq, hle⟩ | ⟨j, v, hjv, heq, hlt, hmax, hfirst⟩
    · refine ⟨x, ?_, ?_, ?_⟩
      · rw [ham, heq]
        rfl
      · intro j0 z hz
        rcases j0 with _ | j0'
        · have hxz : x = z := by simpa using hz
          exact hxz ▸ le_refl x
        · have hz' : xs.get? j0' = some z := by simpa using hz
          exact hle z (List.get?_mem hz')
      · intro j0 z hj0 hz
        rw [ham, heq] at hj0
        exact absurd hj0 (by omega)
    · have ham2 : np_argmax (x :: xs) = 1 + j := by rw [ham, heq]
      refine ⟨v, ?_, ?_, ?_⟩
      · rw [ham2, show 1 + j = j + 1 from by omega]
        simpa using hjv
      · intro j0 z hz
        rcases j0 with _ | j0'
        · have hxz : x = z := by simpa using hz
          exact hxz ▸ le_of_lt hlt
        · have hz' : xs.get? j0' = some z := by simpa using hz
          exact hmax z (List.get?_mem hz')
      · intro j0 z hj0 hz
        rw [ham2] at hj0
        rcases j0 with _ | j0'
        · have hxz : x = z := by simpa using hz
          exact hxz ▸ hlt
        · have hz' : xs.get? j0' = some z := by simpa using hz
          exact hfirst j0' z (by omega) hz'

theorem truediv_get? (r : RecordR) (k : ℝ) (i : ℕ) (e : Int × ℕ × ℝ)
    (hg : r.echoes.get? i = some e) :
    (truediv r k).echoes.get? i =
      some (e.1, e.2.1,
        if (if i ≠ np_argmax (r.echoes.map (fun e => e.2.1)) then e.2.2 - dB k else 1) < 0
        then none
        else some (if i ≠ np_argmax (r.echoes.map (fun e => e.2.1)) then e.2.2 - dB k
          else 1)) := by
  show (r.echoes.enum.map _).get? i = _
  rw [List.get?_map, List.get?_enum, hg]
  rfl

/-- C2 (amended): for every Record with a non-empty echo list and every
`k > 0`, the echo forced to amplitude exactly 1 by `a / k` is the FIRST
echo attaining the maximal HEIGHT index (`np.argmax` is taken over column 1
of the echo array, the height column, not the amplitude column); every
other echo's amplitude is reduced by `20*log10(k)` when the result is
non-negative and becomes NaN (missing) otherwise. -/
theorem truediv_reference_echo (r : RecordR) (k : ℝ) (hk : 0 < k) (hne : r.echoes ≠ []) :
    (∃ e0, r.echoes.get? (np_argmax (r.echoes.map (fun e => e.2.1))) = some e0 ∧
      (truediv r k).echoes.get? (np_argmax (r.echoes.map (fun e => e.2.1))) =
        some (e0.1, e0.2.1, some 1) ∧
      (∀ e ∈ r.echoes, e.2.1 ≤ e0.2.1) ∧
      (∀ j e, j < np_argmax (r.echoes.map (fun e => e.2.1)) → r.echoes.get? j = some e →
        e.2.1 < e0.2.1)) ∧
    (∀ i e, i ≠ np_argmax (r.echoes.map (fun e => e.2.1)) → r.echoes.get? i = some e →
      (truediv r k).echoes.get? i =
        some (e.1, e.2.1,
          if e.2.2 - dB k < 0 then none else some (e.2.2 - dB k))) := by
  have hsne : r.echoes.map (fun e => e.2.1) ≠ [] := by
    simpa using hne
  obtain ⟨m, hm, hmax, hfirst⟩ := np_argmax_spec (r.echoes.map (fun e => e.2.1)) hsne
  rw [List.get?_map] at hm
  constructor
  · cases hg : r.echoes.get? (np_argmax (r.echoes.map (fun e => e.2.1))) with
    | none =>
      rw [hg] at hm
      cases hm
    | some e0 =>
      rw [hg] at hm
      simp only [Option.map_some'] at hm
      have he0m : e0.2.1 = m := by injection hm
      refine ⟨e0, rfl, ?_, ?_, ?_⟩
      · rw [truediv_get? r k _ e0 hg]
        simp
      · intro e he
        obtain ⟨n, hn⟩ := List.mem_iff_get?.mp he
        have : (r.echoes.map (fun e => e.2.1)).get? n = some e.2.1 := by
          rw [List.get?_map, hn]
          rfl
        rw [he0m]
        exact hmax n e.2.1 this
      · intro j e hj hje
        have : (r.echoes.map (fun e => e.2.1)).get? j = some e.2.1 := by
          rw [List.get?_map, hje]
          rfl
        rw [he0m]
        exact hfirst j e.2.1 hj this
  · intro i e hi hg
    rw [truediv_get? r k i e hg]
    simp [hi]

/-- A record whose unique maximal-amplitude echo (amplitude 100) is not the
maximal-height echo (height 10). -/
noncomputable def divSample : RecordR :=
  { noise := [], echoes := [((0 : Int), 5, (100 : ℝ)), ((0 : Int), 10, (50 : ℝ))] }

theorem dB_ten : dB 10 = 20 := by
  unfold dB
  rw [Real.logb_self_eq_one (by norm_num)]
  norm_num

/-- C2 counterexample: in `divSample` the echo of globally maximal amplitude
is the first one (100 > 50), yet after `divSample / 10` its amplitude is
`100 − 20·log10(10) = 80`, not 1: the reference index is `np.argmax` of the
HEIGHT column, which selects the second echo. -/
theorem truediv_maxamp_cex :
    (∀ e ∈ divSample.echoes, e.2.2 ≤ 100) ∧
    divSample.echoes.get? 0 = some ((0 : Int), 5, (100 : ℝ)) ∧
    (truediv divSample 10).echoes.get? 0 = some ((0 : Int), 5, some (80 : ℝ)) ∧
    (80 : ℝ) ≠ 1 := by
  refine ⟨?_, rfl, ?_, by norm_num⟩
  · intro e he
    simp only [divSample, List.mem_cons, List.not_mem_nil, or_false] at he
    rcases he with rfl | rfl <;> norm_num
  · have hg : divSample.echoes.get? 0 = some ((0 : Int), 5, (100 : ℝ)) := rfl
    rw [truediv_get? divSample 10 0 _ hg]
    have hargmax : np_argmax (divSample.echoes.map (fun e => e.2.1)) = 1 := by
      show np_argmax [5, 10] = 1
      decide
    rw [hargmax]
    norm_num [dB_ten]

/-- Witness for `truediv_reference_echo` at `divSample / 10`. -/
theorem truediv_reference_echo_witness :
    (∃ e0, divSample.echoes.get? (np_argmax (divSample.echoes.map (fun e => e.2.1))) =
        some e0 ∧
      (truediv divSample 10).echoes.get?
          (np_argmax (divSample.echoes.map (fun e => e.2.1))) =
        some (e0.1, e0.2.1, some 1) ∧
      (∀ e ∈ divSample.echoes, e.2.1 ≤ e0.2.1) ∧
      (∀ j e, j < np_argmax (divSample.echoes.map (fun e => e.2.1)) →
        divSample.echoes.get? j = some e → e.2.1 < e0.2.1)) ∧
    (∀ i e, i ≠ np_argmax (divSample.echoes.map (fun e => e.2.1)) →
      divSample.echoes.get? i = some e →
      (truediv divSample 10).echoes.get? i =
        some (e.1, e.2.1,
          if e.2.2 - dB 10 < 0 then none else some (e.2.2 - dB 10))) :=
  truediv_reference_echo divSample 10 (by norm_num) (by simp [divSample])

/-! ## `__iadd__`/`__add__`: failure conditions -/

/-- The combined noise vector when the right operand's is not longer:
entry-wise dB power sums on the shared prefix (labels from the left
operand), the left operand's tail untouched. -/
noncomputable def mergedNoise (an bn : List (Int × ℝ)) : List (Int × ℝ) :=
  (an.zipWith (fun p q => (p.1, dB (lin p.2 + lin q.2))) bn) ++ an.drop bn.length

theorem combineNoise_eq (bn : List (Int × ℝ)) : ∀ an : List (Int × ℝ),
    bn.length ≤ an.length → combineNoise an bn = .ok (mergedNoise an bn) := by
  induction bn with
  | nil =>
    intro an _
    cases an <;> simp [combineNoise, mergedNoise]
  | cons q bn ih =>
    intro an hlen
    cases an with
    | nil => simp at hlen
    | cons p an =>
      rcases p with ⟨f, x⟩
      rcases q with ⟨f2, y⟩
      show (combineNoise an bn).map _ = _
      rw [ih an (by simpa using hlen)]
      simp [mergedNoise]
      rfl

theorem combineNoise_error (bn : List (Int × ℝ)) : ∀ an : List (Int × ℝ),
    an.length < bn.length → combineNoise an bn = .error () := by
  induction bn with
  | nil =>
    intro an h
    simp at h
  | cons q bn ih =>
    intro an hlen
    cases an with
    | nil => rfl
    | cons p an =>
      rcases p with ⟨f, x⟩
      rcases q with ⟨f2, y⟩
      show (combineNoise an bn).map _ = _
      rw [ih an (by simpa using hlen)]
      rfl

theorem mergedNoise_length (an bn : List (Int × ℝ)) (h : bn.length ≤ an.length) :
    (mergedNoise an bn).length = an.length := by
  simp [mergedNoise]
  omega

theorem pyGet_eq_none_iff {α : Type} (l : List α) (i : Int) :
    pyGet l i = none ↔ (i < -(l.length : Int) ∨ (l.length : Int) ≤ i) := by
  unfold pyGet
  rcases le_or_lt 0 i with h0 | h0
  · rw [if_pos h0, List.get?_eq_none]
    omega
  · rw [if_neg (by omega)]
    by_cases h1 : 0 ≤ i + l.length
    · rw [if_pos h1, List.get?_eq_none]
      omega
    · rw [if_neg h1]
      simp
      omega

theorem addEchoes_ok_iff (noise : List (Int × ℝ)) :
    ∀ (bs acc : List (Int × ℕ × ℝ)),
      (∃ l, addEchoes noise acc bs = .ok l) ↔ ∀ e ∈ bs, pyGet noise e.1 ≠ none := by
  intro bs
  induction bs with
  | nil =>
    intro acc
    simp only [List.not_mem_nil, false_implies, implies_true, iff_true]
    exact ⟨acc, rfl⟩
  | cons e bs ih =>
    intro acc
    show (∃ l, (match pyGet noise e.1 with
      | none => Except.error ()
      | some nfp =>
        let r := insertEcho nfp.2 e acc
        if r.2 then addEchoes noise r.1 bs
        else if e.2.2 > nfp.2 then addEchoes noise (acc ++ [e]) bs
        else addEchoes noise acc bs) = .ok l) ↔ _
    cases hp : pyGet noise e.1 with
    | none =>
      simp [hp]
    | some nfp =>
      simp only [List.mem_cons]
      constructor
      · intro hl y hy
        rcases hy with rfl | hy
        · rw [hp]
          exact Option.some_ne_none nfp
        · rcases hl with ⟨l, hl⟩
          revert hl
          split
          · intro hl
            exact (ih _).mp ⟨l, hl⟩ y hy
          · split
            all_goals intro hl; exact (ih _).mp ⟨l, hl⟩ y hy
      · intro hall
        have hbs : ∀ y ∈ bs, pyGet noise y.1 ≠ none := fun y hy => hall y (Or.inr hy)
        split
        · exact (ih _).mpr hbs
        · split
          · exact (ih _).mpr hbs
          · exact (ih _).mpr hbs

/-- C4 (amended): `a += b` succeeds — silently producing output — exactly
when `b`'s noise vector is not longer than `a`'s and every echo of `b`
carries a frequency index inside the Python index range of `a`'s noise
vector; otherwise it raises a plain `IndexError` (no `MergeError` exists
anywhere in the code).  In particular a strictly shorter right noise vector
is not detected: only the shared prefix is combined. -/
theorem addR_reduce (a b : RecordR) (n : List (Int × ℝ))
    (h : combineNoise a.noise b.noise = .ok n) :
    addR a b = match addEchoes n a.echoes b.echoes with
      | .error u => .error u
      | .ok es => .ok { a with noise := n, echoes := es } := by
  unfold addR
  rw [h]

theorem iadd_failure_iff (a b : RecordR) :
    (∃ r, addR a b = Except.ok r) ↔
      (b.noise.length ≤ a.noise.length ∧ ∀ e ∈ b.echoes,
        -(a.noise.length : Int) ≤ e.1 ∧ e.1 < (a.noise.length : Int)) := by
  by_cases hlen : b.noise.length ≤ a.noise.length
  · rw [addR_reduce a b _ (combineNoise_eq b.noise a.noise hlen)]
    have hml := mergedNoise_length a.noise b.noise hlen
    cases haddE : addEchoes (mergedNoise a.noise b.noise) a.echoes b.echoes with
    | error u =>
      constructor
      · rintro ⟨r, hr⟩
        exact absurd hr (by simp)
      · rintro ⟨-, hidx⟩
        exfalso
        have hok : ∃ l, addEchoes (mergedNoise a.noise b.noise) a.echoes b.echoes = .ok l := by
          rw [addEchoes_ok_iff]
          intro e he
          rw [Ne, pyGet_eq_none_iff, hml]
          push_neg
          exact hidx e he
        rcases hok with ⟨l, hl⟩
        rw [haddE] at hl
        exact absurd hl (by simp)
    | ok es =>
      constructor
      · rintro -
        refine ⟨hlen, ?_⟩
        intro e he
        have := (addEchoes_ok_iff _ b.echoes a.echoes).mp ⟨es, haddE⟩ e he
        rw [Ne, pyGet_eq_none_iff, hml] at this
        push_neg at this
        exact this
      · rintro -
        exact ⟨_, rfl⟩
  · unfold addR
    rw [combineNoise_error b.noise a.noise (by omega)]
    constructor
    · rintro ⟨r, hr⟩
      exact absurd hr (by simp)
    · rintro ⟨h, -⟩
      omega

/-- Records with misaligned noise vectors (left longer than right). -/
noncomputable def iaddLeft : RecordR :=
  { noise := [((0 : Int), (0 : ℝ)), ((1 : Int), (0 : ℝ))], echoes := [] }

noncomputable def iaddRight : RecordR :=
  { noise := [((0 : Int), (0 : ℝ))], echoes := [] }

/-- C4 counterexample: the operands' noise vectors have differing lengths
(2 versus 1), yet `iaddLeft += iaddRight` raises nothing and produces
output — there is no `MergeError`, and the misalignment passes silently. -/
theorem iadd_silent_success_cex :
    iaddLeft.noise.length = 2 ∧ iaddRight.noise.length = 1 ∧
    ∃ r, addR iaddLeft iaddRight = Except.ok r :=
  ⟨rfl, rfl, ⟨_, rfl⟩⟩

/-! ## `__add__` commutativity analysis

Under the Record invariant — at most one echo per (frequency, height)
position — the echo loop of `__add__` is characterised per position, which
settles when `a + b` and `b + a` agree. -/

def posNe (e1 e2 : Int × ℕ × ℝ) : Prop := echoPos e1 ≠ echoPos e2

theorem posNe_symm : Symmetric posNe := fun _ _ h heq => h heq.symm

theorem pairwise_unique {l : List (Int × ℕ × ℝ)} (hpw : l.Pairwise posNe)
    {x y : Int × ℕ × ℝ} (hx : x ∈ l) (hy : y ∈ l) (hxy : echoPos x = echoPos y) :
    x = y := by
  by_contra hne
  exact (hpw.forall posNe_symm hx hy hne) hxy

/-- Noise floor value read at frequency `f` (the `.getD 0` is never hit when
`pyGet` succeeds). -/
noncomputable def noiseAt (N : List (Int × ℝ)) (f : Int) : ℝ :=
  ((pyGet N f).map (fun p => p.2)).getD 0

theorem noiseAt_of_some {N : List (Int × ℝ)} {f : Int} {p : Int × ℝ}
    (h : pyGet N f = some p) : noiseAt N f = p.2 := by
  unfold noiseAt
  rw [h]
  rfl

theorem insertEcho_not_found (nf : ℝ) (e : Int × ℕ × ℝ) :
    ∀ acc : List (Int × ℕ × ℝ), (∀ e1 ∈ acc, echoPos e1 ≠ echoPos e) →
      insertEcho nf e acc = (acc, false) := by
  intro acc
  induction acc with
  | nil => intro _; rfl
  | cons e1 rest ih =>
    intro h
    simp only [insertEcho]
    rw [if_neg (h e1 (List.mem_cons_self ..)), ih (fun x hx => h x (List.mem_cons_of_mem _ hx))]

theorem insertEcho_found (nf : ℝ) (e x : Int × ℕ × ℝ) (hx : echoPos x = echoPos e) :
    ∀ l1 l2 : List (Int × ℕ × ℝ), (∀ y ∈ l1, echoPos y ≠ echoPos e) →
      insertEcho nf e (l1 ++ x :: l2) =
        (if dB (lin x.2.2 + lin e.2.2) > nf then
          l1 ++ (x.1, x.2.1, dB (lin x.2.2 + lin e.2.2)) :: l2
         else l1 ++ l2, true) := by
  intro l1
  induction l1 with
  | nil =>
    intro l2 _
    simp only [List.nil_append, insertEcho]
    rw [if_pos hx]
  | cons y l1 ih =>
    intro l2 h
    simp only [List.cons_append, insertEcho, List.append_eq]
    rw [if_neg (h y (List.mem_cons_self ..)), ih l2 (fun z hz => h z (List.mem_cons_of_mem _ hz))]
    by_cases hc : dB (lin x.2.2 + lin e.2.2) > nf <;> simp [hc]

theorem pairwise_decomp {l1 l2 : List (Int × ℕ × ℝ)} {x : Int × ℕ × ℝ}
    (h : (l1 ++ x :: l2).Pairwise posNe) :
    (∀ y ∈ l1, echoPos y ≠ echoPos x) ∧ (∀ y ∈ l2, echoPos y ≠ echoPos x) := by
  rw [List.pairwise_append] at h
  obtain ⟨h1, h2, h3⟩ := h
  constructor
  · intro y hy
    exact h3 y hy x (List.mem_cons_self ..)
  · intro y hy
    have hxy := (List.pairwise_cons.mp h2).1 y hy
    exact fun heq => hxy heq.symm

theorem mem_replace_iff {l1 l2 : List (Int × ℕ × ℝ)} {x x' : Int × ℕ × ℝ}
    (hpw : (l1 ++ x :: l2).Pairwise posNe) (t : Int × ℕ × ℝ) :
    t ∈ l1 ++ x' :: l2 ↔ ((t ∈ l1 ++ x :: l2 ∧ echoPos t ≠ echoPos x) ∨ t = x') := by
  obtain ⟨hl1, hl2⟩ := pairwise_decomp hpw
  simp only [List.mem_append, List.mem_cons]
  constructor
  · rintro (h | h | h)
    · exact Or.inl ⟨Or.inl h, hl1 t h⟩
    · exact Or.inr h
    · exact Or.inl ⟨Or.inr (Or.inr h), hl2 t h⟩
  · rintro (⟨(h | h | h), hne⟩ | rfl)
    · exact Or.inl h
    · cases h
      exact absurd rfl hne
    · exact Or.inr (Or.inr h)
    · exact Or.inr (Or.inl rfl)

theorem pairwise_replace {l1 l2 : List (Int × ℕ × ℝ)} {x x' : Int × ℕ × ℝ}
    (hpos : echoPos x' = echoPos x) (h : (l1 ++ x :: l2).Pairwise posNe) :
    (l1 ++ x' :: l2).Pairwise posNe := by
  rw [List.pairwise_append] at h ⊢
  obtain ⟨h1, h2, h3⟩ := h
  rw [List.pairwise_cons] at h2
  refine ⟨h1, ?_, ?_⟩
  · rw [List.pairwise_cons]
    refine ⟨fun y hy => ?_, h2.2⟩
    show echoPos x' ≠ echoPos y
    rw [hpos]
    exact h2.1 y hy
  · intro a ha b hb
    rcases List.mem_cons.mp hb with rfl | hb2
    · show echoPos a ≠ echoPos b
      rw [hpos]
      exact h3 a ha x (List.mem_cons_self ..)
    · exact h3 a ha b (List.mem_cons_of_mem _ hb2)

theorem mem_erase_iff {l1 l2 : List (Int × ℕ × ℝ)} {x : Int × ℕ × ℝ}
    (hpw : (l1 ++ x :: l2).Pairwise posNe) (t : Int × ℕ × ℝ) :
    t ∈ l1 ++ l2 ↔ (t ∈ l1 ++ x :: l2 ∧ echoPos t ≠ echoPos x) := by
  obtain ⟨hl1, hl2⟩ := pairwise_decomp hpw
  simp only [List.mem_append, List.mem_cons]
  constructor
  · rintro (h | h)
    · exact ⟨Or.inl h, hl1 t h⟩
    · exact ⟨Or.inr (Or.inr h), hl2 t h⟩
  · rintro ⟨(h | h | h), hne⟩
    · exact Or.inl h
    · cases h
      exact absurd rfl hne
    · exact Or.inr h

theorem pairwise_erase {l1 l2 : List (Int × ℕ × ℝ)} {x : Int × ℕ × ℝ}
    (h : (l1 ++ x :: l2).Pairwise posNe) : (l1 ++ l2).Pairwise posNe := by
  have hsub : List.Sublist (l1 ++ l2) (l1 ++ x :: l2) :=
    List.Sublist.append_left (List.sublist_cons_self x l2) l1
  exact h.sublist hsub

theorem pairwise_append_single {acc : List (Int × ℕ × ℝ)} {e : Int × ℕ × ℝ}
    (hacc : acc.Pairwise posNe) (h : ∀ y ∈ acc, echoPos y ≠ echoPos e) :
    (acc ++ [e]).Pairwise posNe := by
  rw [List.pairwise_append]
  refine ⟨hacc, List.pairwise_singleton _ _, ?_⟩
  intro a ha b hb
  rw [List.mem_singleton] at hb
  subst hb
  exact h a ha

/-- What survives the echo loop, per echo triple `t`: an accumulator echo
whose position `other` never touches; a matched pair combined to a
super-threshold dB power sum; or an unmatched `other` echo above the noise
floor. -/
noncomputable def mergeSpec (N : List (Int × ℝ)) (acc bs : List (Int × ℕ × ℝ))
    (t : Int × ℕ × ℝ) : Prop :=
  (t ∈ acc ∧ ∀ y ∈ bs, echoPos y ≠ echoPos t) ∨
  (∃ x0 y0, (t.1, t.2.1, x0) ∈ acc ∧ (t.1, t.2.1, y0) ∈ bs ∧
    t.2.2 = dB (lin x0 + lin y0) ∧ t.2.2 > noiseAt N t.1) ∨
  (t ∈ bs ∧ (∀ y ∈ acc, echoPos y ≠ echoPos t) ∧ t.2.2 > noiseAt N t.1)

theorem mergeSpec_nil (N : List (Int × ℝ)) (acc : List (Int × ℕ × ℝ)) (t : Int × ℕ × ℝ) :
    mergeSpec N acc [] t ↔ t ∈ acc := by
  unfold mergeSpec
  simp

/-- Transfer of the per-echo characterisation across one loop step, at a
position different from the processed echo's. -/
theorem mergeSpec_neg_pos (N : List (Int × ℝ)) (acc acc' bs : List (Int × ℕ × ℝ))
    (e t : Int × ℕ × ℝ) (hpt : echoPos t ≠ echoPos e)
    (hsame : ∀ u : Int × ℕ × ℝ, echoPos u = echoPos t → (u ∈ acc' ↔ u ∈ acc)) :
    mergeSpec N acc' bs t ↔ mergeSpec N acc (e :: bs) t := by
  have hnoacc : (∀ y ∈ acc', echoPos y ≠ echoPos t) ↔
      (∀ y ∈ acc, echoPos y ≠ echoPos t) := by
    constructor
    · intro h y hy heq
      exact h y ((hsame y heq).mpr hy) heq
    · intro h y hy heq
      exact h y ((hsame y heq).mp hy) heq
  unfold mergeSpec
  apply or_congr
  · apply and_congr (hsame t rfl)
    constructor
    · intro h y hy
      rcases List.mem_cons.mp hy with rfl | hy2
      · exact fun heq => hpt heq.symm
      · exact h y hy2
    · intro h y hy
      exact h y (List.mem_cons_of_mem _ hy)
  apply or_congr
  · apply exists_congr
    intro x0
    apply exists_congr
    intro y0
    apply and_congr (hsame (t.1, t.2.1, x0) rfl)
    apply and_congr ?_ Iff.rfl
    constructor
    · exact fun h => List.mem_cons_of_mem _ h
    · intro h
      rcases List.mem_cons.mp h with he | h2
      · exact absurd (show echoPos t = echoPos e from by
          conv_lhs => rw [show echoPos t = echoPos (t.1, t.2.1, y0) from rfl]
          rw [he]) hpt
      · exact h2
  · apply and_congr ?_ (and_congr hnoacc Iff.rfl)
    constructor
    · exact fun h => List.mem_cons_of_mem _ h
    · intro h
      rcases List.mem_cons.mp h with rfl | h2
      · exact absurd rfl hpt
      · exact h2

/-- After the step, at the processed position, when the step left a single
echo `w` there: only `w` survives. -/
theorem mergeSpec_at_pos_left (N : List (Int × ℝ)) (acc' bs : List (Int × ℕ × ℝ))
    (e w t : Int × ℕ × ℝ) (hpt : echoPos t = echoPos e)
    (hbse : ∀ y ∈ bs, echoPos y ≠ echoPos e)
    (hacc'e : ∀ u ∈ acc', echoPos u = echoPos e → u = w)
    (hwmem : w ∈ acc') :
    mergeSpec N acc' bs t ↔ t = w := by
  have hbst : ∀ y ∈ bs, echoPos y ≠ echoPos t := fun y hy heq => hbse y hy (heq.trans hpt)
  constructor
  · rintro (⟨ht, _⟩ | ⟨x0, y0, _, hy0, _, _⟩ | ⟨ht, _, _⟩)
    · exact hacc'e t ht hpt
    · exact absurd rfl (hbst (t.1, t.2.1, y0) hy0)
    · exact absurd rfl (hbst t ht)
  · rintro rfl
    exact Or.inl ⟨hwmem, hbst⟩

/-- After the step, at the processed position, when the step left no echo
there: nothing survives. -/
theorem mergeSpec_at_pos_none (N : List (Int × ℝ)) (acc' bs : List (Int × ℕ × ℝ))
    (e t : Int × ℕ × ℝ) (hpt : echoPos t = echoPos e)
    (hbse : ∀ y ∈ bs, echoPos y ≠ echoPos e)
    (hacc'e : ∀ u ∈ acc', echoPos u ≠ echoPos e) :
    ¬ mergeSpec N acc' bs t := by
  have hbst : ∀ y ∈ bs, echoPos y ≠ echoPos t := fun y hy heq => hbse y hy (heq.trans hpt)
  rintro (⟨ht, _⟩ | ⟨x0, y0, _, hy0, _, _⟩ | ⟨ht, _, _⟩)
  · exact hacc'e t ht hpt
  · exact (hbst (t.1, t.2.1, y0) hy0) rfl
  · exact absurd rfl (hbst t ht)

/-- Before the step, at the processed position, when the accumulator holds a
matching echo `x`: survival means being exactly the combined echo above the
floor. -/
theorem mergeSpec_rhs_matched (N : List (Int × ℝ)) (acc bs : List (Int × ℕ × ℝ))
    (e x t : Int × ℕ × ℝ)
    (hacc : acc.Pairwise posNe) (hxmem : x ∈ acc) (hxe : echoPos x = echoPos e)
    (hbse : ∀ y ∈ bs, echoPos y ≠ echoPos e)
    (hpt : echoPos t = echoPos e) :
    mergeSpec N acc (e :: bs) t ↔
      (t = (x.1, x.2.1, dB (lin x.2.2 + lin e.2.2)) ∧
        dB (lin x.2.2 + lin e.2.2) > noiseAt N e.1) := by
  have hbst : ∀ y ∈ bs, echoPos y ≠ echoPos t := fun y hy heq => hbse y hy (heq.trans hpt)
  have hxparts : x.1 = e.1 ∧ x.2.1 = e.2.1 := Prod.ext_iff.mp hxe
  have htparts : t.1 = e.1 ∧ t.2.1 = e.2.1 := Prod.ext_iff.mp hpt
  constructor
  · rintro (⟨ht, hno⟩ | ⟨x0, y0, hx0, hy0, hamp, hgt⟩ | ⟨ht, hnoacc, _⟩)
    · exact absurd hpt.symm (hno e (List.mem_cons_self ..))
    · have hx0x : (t.1, t.2.1, x0) = x :=
        pairwise_unique hacc hx0 hxmem (show echoPos t = echoPos x from hpt.trans hxe.symm)
      rcases List.mem_cons.mp hy0 with he' | hbs'
      · have hy0e : y0 = e.2.2 := congrArg (fun z => z.2.2) he'
        have hx0v : x0 = x.2.2 := congrArg (fun z => z.2.2) hx0x
        have hts : t.2.2 = dB (lin x.2.2 + lin e.2.2) := by rw [hamp, hx0v, hy0e]
        constructor
        · exact Prod.ext (congrArg (fun z => z.1) hx0x)
            (Prod.ext (congrArg (fun z => z.2.1) hx0x) hts)
        · rw [← htparts.1, ← hts]
          exact hgt
      · exact absurd rfl (hbst (t.1, t.2.1, y0) hbs')
    · exact absurd (hxe.trans hpt.symm) (hnoacc x hxmem)
  · rintro ⟨rfl, hgt⟩
    right
    left
    refine ⟨x.2.2, e.2.2, hxmem, List.mem_cons.mpr (Or.inl ?_), rfl, ?_⟩
    · exact Prod.ext hxparts.1 (Prod.ext hxparts.2 rfl)
    · show dB (lin x.2.2 + lin e.2.2) > noiseAt N x.1
      rw [hxparts.1]
      exact hgt

/-- Before the step, at the processed position, when the accumulator holds
no matching echo: survival means being `e` itself above the floor. -/
theorem mergeSpec_rhs_unmatched (N : List (Int × ℝ)) (acc bs : List (Int × ℕ × ℝ))
    (e t : Int × ℕ × ℝ)
    (hnoacc : ∀ y ∈ acc, echoPos y ≠ echoPos e)
    (hbse : ∀ y ∈ bs, echoPos y ≠ echoPos e)
    (hpt : echoPos t = echoPos e) :
    mergeSpec N acc (e :: bs) t ↔ (t = e ∧ e.2.2 > noiseAt N e.1) := by
  have hbst : ∀ y ∈ bs, echoPos y ≠ echoPos t := fun y hy heq => hbse y hy (heq.trans hpt)
  constructor
  · rintro (⟨ht, hno⟩ | ⟨x0, y0, hx0, hy0, hamp, hgt⟩ | ⟨ht, hnoa, hgt⟩)
    · exact absurd hpt.symm (hno e (List.mem_cons_self ..))
    · exact absurd hpt (hnoacc (t.1, t.2.1, x0) hx0)
    · rcases List.mem_cons.mp ht with rfl | hbs2
      · exact ⟨rfl, hgt⟩
      · exact absurd rfl (hbst t hbs2)
  · rintro ⟨rfl, hgt⟩
    right
    right
    refine ⟨List.mem_cons_self .., ?_, hgt⟩
    intro y hy heq
    exact hnoacc y hy (heq.trans hpt)

theorem addEchoes_cons_eq (N : List (Int × ℝ)) (acc : List (Int × ℕ × ℝ))
    (e : Int × ℕ × ℝ) (bs : List (Int × ℕ × ℝ)) (nfp : Int × ℝ)
    (hp : pyGet N e.1 = some nfp) :
    addEchoes N acc (e :: bs) =
      if (insertEcho nfp.2 e acc).2 then addEchoes N (insertEcho nfp.2 e acc).1 bs
      else if e.2.2 > nfp.2 then addEchoes N (acc ++ [e]) bs
      else addEchoes N acc bs := by
  show (match pyGet N e.1 with
    | none => Except.error ()
    | some nfp =>
      let r := insertEcho nfp.2 e acc
      if r.2 then addEchoes N r.1 bs
      else if e.2.2 > nfp.2 then addEchoes N (acc ++ [e]) bs
      else addEchoes N acc bs) = _
  rw [hp]

/-- The echo loop characterised: it succeeds on position-distinct operands
whose floors are all readable, preserves position-distinctness, and its
result's members are exactly `mergeSpec`. -/
theorem addEchoes_spec (N : List (Int × ℝ)) :
    ∀ bs acc : List (Int × ℕ × ℝ), acc.Pairwise posNe → bs.Pairwise posNe →
      (∀ e ∈ bs, pyGet N e.1 ≠ none) →
      ∃ l, addEchoes N acc bs = .ok l ∧ l.Pairwise posNe ∧
        ∀ t, (t ∈ l ↔ mergeSpec N acc bs t) := by
  intro bs
  induction bs with
  | nil =>
    intro acc hacc _ _
    exact ⟨acc, rfl, hacc, fun t => (mergeSpec_nil N acc t).symm⟩
  | cons e bs ih =>
    intro acc hacc hb hv
    have hbse : ∀ y ∈ bs, echoPos y ≠ echoPos e := by
      intro y hy heq
      exact (List.pairwise_cons.mp hb).1 y hy heq.symm
    have hbs := (List.pairwise_cons.mp hb).2
    have hv' : ∀ y ∈ bs, pyGet N y.1 ≠ none := fun y hy => hv y (List.mem_cons_of_mem _ hy)
    obtain ⟨nfp, hp⟩ := Option.ne_none_iff_exists'.mp (hv e (List.mem_cons_self ..))
    have hnoise : noiseAt N e.1 = nfp.2 := noiseAt_of_some hp
    by_cases hfound : ∃ x ∈ acc, echoPos x = echoPos e
    · obtain ⟨x, hxmem, hxe⟩ := hfound
      obtain ⟨l1, l2, hacceq⟩ := List.append_of_mem hxmem
      subst hacceq
      have hl1 : ∀ y ∈ l1, echoPos y ≠ echoPos e := by
        intro y hy
        rw [← hxe]
        exact (pairwise_decomp hacc).1 y hy
      by_cases hgate : dB (lin x.2.2 + lin e.2.2) > nfp.2
      · have hred : addEchoes N (l1 ++ x :: l2) (e :: bs) =
            addEchoes N (l1 ++ (x.1, x.2.1, dB (lin x.2.2 + lin e.2.2)) :: l2) bs := by
          rw [addEchoes_cons_eq N _ e bs nfp hp,
            insertEcho_found nfp.2 e x hxe l1 l2 hl1, if_pos hgate]
          rfl
        have hacc' : (l1 ++ (x.1, x.2.1, dB (lin x.2.2 + lin e.2.2)) :: l2).Pairwise posNe :=
          pairwise_replace
            (show echoPos (x.1, x.2.1, dB (lin x.2.2 + lin e.2.2)) = echoPos x from rfl) hacc
        obtain ⟨l, hl, hlpw, hlmem⟩ :=
          ih (l1 ++ (x.1, x.2.1, dB (lin x.2.2 + lin e.2.2)) :: l2) hacc' hbs hv'
        refine ⟨l, hred.trans hl, hlpw, ?_⟩
        intro t
        rw [hlmem t]
        by_cases hpt : echoPos t = echoPos e
        · have huniq : ∀ u ∈ l1 ++ (x.1, x.2.1, dB (lin x.2.2 + lin e.2.2)) :: l2,
              echoPos u = echoPos e → u = (x.1, x.2.1, dB (lin x.2.2 + lin e.2.2)) := by
            intro u hu hue
            rcases (mem_replace_iff hacc u).mp hu with ⟨_, hune⟩ | h
            · exact absurd (hue.trans hxe.symm) hune
            · exact h
          have hwmem : (x.1, x.2.1, dB (lin x.2.2 + lin e.2.2)) ∈
              l1 ++ (x.1, x.2.1, dB (lin x.2.2 + lin e.2.2)) :: l2 :=
            (mem_replace_iff hacc _).mpr (Or.inr rfl)
          rw [mergeSpec_at_pos_left N _ bs e (x.1, x.2.1, dB (lin x.2.2 + lin e.2.2)) t
              hpt hbse huniq hwmem,
            mergeSpec_rhs_matched N _ bs e x t hacc hxmem hxe hbse hpt, hnoise]
          exact (and_iff_left hgate).symm
        · apply mergeSpec_neg_pos N _ _ bs e t hpt
          intro u hupos
          rw [mem_replace_iff hacc u]
          constructor
          · rintro (⟨h, _⟩ | rfl)
            · exact h
            · exfalso
              apply hpt
              rw [← hupos]
              exact hxe
          · intro h
            exact Or.inl ⟨h, fun heq => hpt ((hupos.symm.trans heq).trans hxe)⟩
      · have hred : addEchoes N (l1 ++ x :: l2) (e :: bs) = addEchoes N (l1 ++ l2) bs := by
          rw [addEchoes_cons_eq N _ e bs nfp hp,
            insertEcho_found nfp.2 e x hxe l1 l2 hl1, if_neg hgate]
          rfl
        have hacc' : (l1 ++ l2).Pairwise posNe := pairwise_erase hacc
        obtain ⟨l, hl, hlpw, hlmem⟩ := ih (l1 ++ l2) hacc' hbs hv'
        refine ⟨l, hred.trans hl, hlpw, ?_⟩
        intro t
        rw [hlmem t]
        by_cases hpt : echoPos t = echoPos e
        · have hnone : ∀ u ∈ l1 ++ l2, echoPos u ≠ echoPos e := by
            intro u hu heq
            exact ((mem_erase_iff hacc u).mp hu).2 (heq.trans hxe.symm)
          constructor
          · intro h
            exact absurd h (mergeSpec_at_pos_none N _ bs e t hpt hbse hnone)
          · intro h
            rw [mergeSpec_rhs_matched N _ bs e x t hacc hxmem hxe hbse hpt, hnoise] at h
            exact absurd h.2 hgate
        · apply mergeSpec_neg_pos N _ _ bs e t hpt
          intro u hupos
          rw [mem_erase_iff hacc u]
          constructor
          · rintro ⟨h, _⟩
            exact h
          · intro h
            exact ⟨h, fun heq => hpt ((hupos.symm.trans heq).trans hxe)⟩
    · push_neg at hfound
      have hnf : ∀ e1 ∈ acc, echoPos e1 ≠ echoPos e := hfound
      have hins : insertEcho nfp.2 e acc = (acc, false) := insertEcho_not_found nfp.2 e acc hnf
      by_cases hgt : e.2.2 > nfp.2
      · have hred : addEchoes N acc (e :: bs) = addEchoes N (acc ++ [e]) bs := by
          rw [addEchoes_cons_eq N acc e bs nfp hp, hins, if_pos hgt]
          rfl
        have hacc' := pairwise_append_single hacc hnf
        obtain ⟨l, hl, hlpw, hlmem⟩ := ih (acc ++ [e]) hacc' hbs hv'
        refine ⟨l, hred.trans hl, hlpw, ?_⟩
        intro t
        rw [hlmem t]
        by_cases hpt : echoPos t = echoPos e
        · have huniq : ∀ u ∈ acc ++ [e], echoPos u = echoPos e → u = e := by
            intro u hu hue
            rcases List.mem_append.mp hu with h | h
            · exact absurd hue (hnf u h)
            · exact List.mem_singleton.mp h
          have hwmem : e ∈ acc ++ [e] := List.mem_append.mpr (Or.inr (List.mem_singleton.mpr rfl))
          rw [mergeSpec_at_pos_left N _ bs e e t hpt hbse huniq hwmem,
            mergeSpec_rhs_unmatched N acc bs e t hnf hbse hpt, hnoise]
          exact (and_iff_left hgt).symm
        · apply mergeSpec_neg_pos N _ _ bs e t hpt
          intro u hupos
          rw [List.mem_append, List.mem_singleton]
          constructor
          · rintro (h | rfl)
            · exact h
            · exact absurd hupos.symm hpt
          · exact fun h => Or.inl h
      · have hred : addEchoes N acc (e :: bs) = addEchoes N acc bs := by
          rw [addEchoes_cons_eq N acc e bs nfp hp, hins, if_neg hgt]
          rfl
        obtain ⟨l, hl, hlpw, hlmem⟩ := ih acc hacc hbs hv'
        refine ⟨l, hred.trans hl, hlpw, ?_⟩
        intro t
        rw [hlmem t]
        by_cases hpt : echoPos t = echoPos e
        · constructor
          · intro h
            exact absurd h (mergeSpec_at_pos_none N acc bs e t hpt hbse hnf)
          · intro h
            rw [mergeSpec_rhs_unmatched N acc bs e t hnf hbse hpt, hnoise] at h
            exact absurd h.2 hgt
        · exact mergeSpec_neg_pos N acc acc bs e t hpt (fun u _ => Iff.rfl)

theorem mergedNoise_comm (bn : List (Int × ℝ)) : ∀ an : List (Int × ℝ),
    an.length = bn.length → an.map Prod.fst = bn.map Prod.fst →
    mergedNoise an bn = mergedNoise bn an := by
  induction bn with
  | nil =>
    intro an h _
    cases an with
    | nil => rfl
    | cons p an => simp at h
  | cons q bn ih =>
    intro an hlen hlab
    cases an with
    | nil => simp at hlen
    | cons p an =>
      have hl : p.1 = q.1 ∧ an.map Prod.fst = bn.map Prod.fst := by simpa using hlab
      have hrec := ih an (by simpa using hlen) hl.2
      unfold mergedNoise at hrec ⊢
      simp only [List.zipWith_cons_cons, List.length_cons, List.drop_succ_cons, List.cons_append]
      rw [hl.1, add_comm (lin p.2) (lin q.2), hrec]

/-- One direction of the per-echo symmetry, under the super-threshold
premise for echoes unique to the left list. -/
theorem mergeSpec_swap (N : List (Int × ℝ)) (ae be : List (Int × ℕ × ℝ)) (t : Int × ℕ × ℝ)
    (hsa : ∀ e ∈ ae, (∀ y ∈ be, echoPos y ≠ echoPos e) → e.2.2 > noiseAt N e.1) :
    mergeSpec N ae be t → mergeSpec N be ae t := by
  rintro (⟨ht, hno⟩ | ⟨x0, y0, hx0, hy0, hamp, hgt⟩ | ⟨ht, hno, hgt⟩)
  · right
    right
    exact ⟨ht, hno, hsa t ht hno⟩
  · right
    left
    exact ⟨y0, x0, hy0, hx0, by rw [hamp, add_comm], hgt⟩
  · left
    exact ⟨ht, hno⟩

/-- C3 (amended): with aligned noise vectors, at most one echo per position
in each operand (the Record invariant), echo frequency indices inside the
noise range, and — the correction — every echo occurring in only one
operand being super-threshold relative to the combined noise floor,
`a + b` and `b + a` produce identical noise vectors and identical surviving
echo sets.  Without the super-threshold premise commutativity fails: an
echo unique to the left operand always survives while one unique to the
right operand is gated (see the counterexample). -/
theorem add_commutes_gated (a b : RecordR)
    (hlen : a.noise.length = b.noise.length)
    (hidx : a.noise.map Prod.fst = b.noise.map Prod.fst)
    (hpa : a.echoes.Pairwise posNe) (hpb : b.echoes.Pairwise posNe)
    (hfa : ∀ e ∈ a.echoes, -(a.noise.length : Int) ≤ e.1 ∧ e.1 < (a.noise.length : Int))
    (hfb : ∀ e ∈ b.echoes, -(a.noise.length : Int) ≤ e.1 ∧ e.1 < (a.noise.length : Int))
    (hsa : ∀ e ∈ a.echoes, (∀ y ∈ b.echoes, echoPos y ≠ echoPos e) →
      e.2.2 > noiseAt (mergedNoise a.noise b.noise) e.1)
    (hsb : ∀ e ∈ b.echoes, (∀ y ∈ a.echoes, echoPos y ≠ echoPos e) →
      e.2.2 > noiseAt (mergedNoise a.noise b.noise) e.1) :
    ∃ ra rb, addR a b = Except.ok ra ∧ addR b a = Except.ok rb ∧
      ra.noise = rb.noise ∧ (∀ t, t ∈ ra.echoes ↔ t ∈ rb.echoes) := by
  have hcomm : mergedNoise a.noise b.noise = mergedNoise b.noise a.noise :=
    mergedNoise_comm b.noise a.noise hlen hidx
  have hNlen : (mergedNoise a.noise b.noise).length = a.noise.length :=
    mergedNoise_length _ _ (le_of_eq hlen.symm)
  have hvb : ∀ e ∈ b.echoes, pyGet (mergedNoise a.noise b.noise) e.1 ≠ none := by
    intro e he
    rw [Ne, pyGet_eq_none_iff, hNlen]
    push_neg
    exact hfb e he
  have hva : ∀ e ∈ a.echoes, pyGet (mergedNoise a.noise b.noise) e.1 ≠ none := by
    intro e he
    rw [Ne, pyGet_eq_none_iff, hNlen]
    push_neg
    exact hfa e he
  obtain ⟨la, hla, _, hlamem⟩ :=
    addEchoes_spec (mergedNoise a.noise b.noise) b.echoes a.echoes hpa hpb hvb
  obtain ⟨lb, hlb, _, hlbmem⟩ :=
    addEchoes_spec (mergedNoise a.noise b.noise) a.echoes b.echoes hpb hpa hva
  refine ⟨{ a with noise := mergedNoise a.noise b.noise, echoes := la },
    { b with noise := mergedNoise b.noise a.noise, echoes := lb }, ?_, ?_, hcomm, ?_⟩
  · rw [addR_reduce a b _ (combineNoise_eq b.noise a.noise (le_of_eq hlen.symm)), hla]
  · rw [addR_reduce b a _ (combineNoise_eq a.noise b.noise (le_of_eq hlen)), hcomm.symm, hlb]
  · intro t
    show t ∈ la ↔ t ∈ lb
    rw [hlamem t, hlbmem t]
    exact ⟨mergeSpec_swap _ a.echoes b.echoes t hsa, mergeSpec_swap _ b.echoes a.echoes t hsb⟩

theorem lin_zero : lin 0 = 1 := by
  unfold lin
  rw [zero_div, Real.rpow_zero]

theorem dB_two_pos : 0 < dB (lin 0 + lin 0) := by
  rw [lin_zero]
  unfold dB
  have h2 : (1 : ℝ) + 1 = 2 := by norm_num
  rw [h2]
  exact mul_pos (by norm_num) (Real.logb_pos (by norm_num) (by norm_num))

theorem dB_two_lt_twenty : dB (lin 0 + lin 0) < 20 := by
  rw [lin_zero]
  unfold dB
  have h2 : (1 : ℝ) + 1 = 2 := by norm_num
  rw [h2]
  have hlog : Real.logb 10 2 < 1 := by
    have h : Real.logb 10 2 < Real.logb 10 10 :=
      Real.logb_lt_logb (by norm_num) (by norm_num) (by norm_num)
    rwa [Real.logb_self_eq_one (by norm_num)] at h
  calc 20 * Real.logb 10 2 < 20 * 1 := by
        exact mul_lt_mul_of_pos_left hlog (by norm_num)
    _ = 20 := by norm_num

/-- Left operand with a sub-threshold echo the right operand lacks. -/
noncomputable def commA : RecordR :=
  { noise := [((0 : Int), (0 : ℝ))], echoes := [((0 : Int), 2, (0 : ℝ))] }

noncomputable def commB : RecordR :=
  { noise := [((0 : Int), (0 : ℝ))], echoes := [] }

/-- C3 counterexample: the operands are aligned (equal noise lengths and
labels), yet `commA + commB` keeps the echo `(0, 2, 0)` — echoes unique to
the left operand are never examined — while `commB + commA` drops it, its
amplitude 0 being below the combined noise floor `20·log10(2)`.  The
surviving echo sets differ, refuting commutativity as claimed. -/
theorem add_commutes_cex :
    commA.noise.length = commB.noise.length ∧
    commA.noise.map Prod.fst = commB.noise.map Prod.fst ∧
    ∃ ra rb, addR commA commB = Except.ok ra ∧ addR commB commA = Except.ok rb ∧
      ((0 : Int), 2, (0 : ℝ)) ∈ ra.echoes ∧ ((0 : Int), 2, (0 : ℝ)) ∉ rb.echoes := by
  have hng : ¬((0 : ℝ) > dB (lin 0 + lin 0)) := not_lt.mpr (le_of_lt dB_two_pos)
  have h2 : addEchoes [((0 : Int), dB (lin 0 + lin 0))] commB.echoes commA.echoes =
      Except.ok [] := by
    show addEchoes [((0 : Int), dB (lin 0 + lin 0))] [] [((0 : Int), 2, (0 : ℝ))] =
      Except.ok []
    rw [addEchoes_cons_eq [((0 : Int), dB (lin 0 + lin 0))] [] ((0 : Int), 2, (0 : ℝ)) []
      ((0 : Int), dB (lin 0 + lin 0)) rfl]
    show (if (0 : ℝ) > dB (lin 0 + lin 0) then
        addEchoes [((0 : Int), dB (lin 0 + lin 0))] ([] ++ [((0 : Int), 2, (0 : ℝ))]) []
      else addEchoes [((0 : Int), dB (lin 0 + lin 0))] [] []) = Except.ok []
    rw [if_neg hng]
    rfl
  have hred : addR commB commA =
      Except.ok { commB with noise := [((0 : Int), dB (lin 0 + lin 0))], echoes := [] } := by
    rw [addR_reduce commB commA [((0 : Int), dB (lin 0 + lin 0))] rfl, h2]
  refine ⟨rfl, rfl, _, _, rfl, hred, ?_, ?_⟩
  · exact List.mem_singleton.mpr rfl
  · show ((0 : Int), 2, (0 : ℝ)) ∉ ([] : List (Int × ℕ × ℝ))
    exact List.not_mem_nil _

/-- Operands for the witness: the echo unique to `wA` is super-threshold. -/
noncomputable def wA : RecordR :=
  { noise := [((0 : Int), (0 : ℝ))], echoes := [((0 : Int), 2, (20 : ℝ))] }

noncomputable def wB : RecordR :=
  { noise := [((0 : Int), (0 : ℝ))], echoes := [] }

/-- Witness for `add_commutes_gated` at `wA`, `wB`. -/
theorem add_commutes_gated_witness :
    ∃ ra rb, addR wA wB = Except.ok ra ∧ addR wB wA = Except.ok rb ∧
      ra.noise = rb.noise ∧ (∀ t, t ∈ ra.echoes ↔ t ∈ rb.echoes) :=
  add_commutes_gated wA wB rfl rfl
    (List.pairwise_singleton ..) List.Pairwise.nil
    (by
      intro e he
      have he2 : e = ((0 : Int), 2, (20 : ℝ)) := List.mem_singleton.mp he
      subst he2
      exact ⟨by norm_num [wA], by norm_num [wA]⟩)
    (by
      intro e he
      exact absurd he (List.not_mem_nil e))
    (by
      intro e he _
      have he2 : e = ((0 : Int), 2, (20 : ℝ)) := List.mem_singleton.mp he
      subst he2
      show (20 : ℝ) > dB (lin 0 + lin 0)
      exact dB_two_lt_twenty)
    (by
      intro e he _
      exact absurd he (List.not_mem_nil e))

/-! ## The window enumeration of `process.py` (`main`)

`main` builds the job list with nested Python `range` loops:
`range(date_from[0], date_to[0]+1)` over years, months, days, then
`range(0, 24)` over hours and `range(0, 60, dm)` over window-start minutes,
appending `(year, month, day, h, m, m + dm)`. -/

/-- Python `range(start, stop, step)` for a positive step (`range` with step 0
raises `ValueError`; modelled as the empty enumeration, unused here). -/
def pyRange (start stop step : ℕ) : List ℕ :=
  if step = 0 then [] else List.range' start ((stop - start + step - 1) / step) step

def enumJobs (yf mf df yt mt dtt dm : ℕ) : List (ℕ × ℕ × ℕ × ℕ × ℕ × ℕ) :=
  (pyRange yf (yt + 1) 1).flatMap fun year =>
    (pyRange mf (mt + 1) 1).flatMap fun month =>
      (pyRange df (dtt + 1) 1).flatMap fun day =>
        (pyRange 0 24 1).flatMap fun h =>
          (pyRange 0 60 dm).map fun m => (year, month, day, h, m, m + dm)

/-! ## Claim theorems on the decode loop and the window enumeration -/

/-- C6: the body consisting of a cluster header carrying frequency index 1
(word `0x8001`) with alignment word 1, a noise group (amplitude 5, height
index 1) and an echo group (amplitude 42, height index 10) decodes to
`noise = [(0, 5)]`, `echoes = [(0, 10, 42)]`; and in general, a non-header
group whose second word is 1 is appended to `noise` while any other
non-header group is appended to `echoes`. -/
theorem parse_concrete_scenario :
    parseIonogram [(32769, 1), (5, 1), (42, 10)] =
      { ifn := 0, noise := [(0, 5)], echoes := [(0, 10, 42)] } ∧
    (∀ (body : List (ℕ × ℕ)) (w h : ℕ), isHeader w = false →
      (h = 1 →
        (parseIonogram (body ++ [(w, h)])).noise =
          (parseIonogram body).noise ++ [((parseIonogram body).ifn, w)] ∧
        (parseIonogram (body ++ [(w, h)])).echoes = (parseIonogram body).echoes) ∧
      (h ≠ 1 →
        (parseIonogram (body ++ [(w, h)])).echoes =
          (parseIonogram body).echoes ++ [((parseIonogram body).ifn, h, w)] ∧
        (parseIonogram (body ++ [(w, h)])).noise = (parseIonogram body).noise)) := by
  constructor
  · decide
  · intro body w h hw
    constructor
    · intro h1
      rw [parseIonogram_append_single, parseStep_noise _ _ hw h1]
      exact ⟨rfl, rfl⟩
    · intro h1
      rw [parseIonogram_append_single, parseStep_echo _ _ hw h1]
      exact ⟨rfl, rfl⟩

/-- C9: the frequency index attached to a noise or echo sample equals the
number of cluster-header groups preceding it in the body, minus one — the
15-bit frequency value encoded in the headers themselves is never consulted
(`parseStep` discards it); a sample before the first header gets index
`-1` (the case `headerCount pre = 0`). -/
theorem parse_freq_from_header_count (pre post : List (ℕ × ℕ)) (w h : ℕ)
    (hw : isHeader w = false) :
    (h = 1 → ∃ tl, (parseIonogram (pre ++ (w, h) :: post)).noise =
      (parseIonogram pre).noise ++ ((headerCount pre : Int) - 1, w) :: tl) ∧
    (h ≠ 1 → ∃ tl, (parseIonogram (pre ++ (w, h) :: post)).echoes =
      (parseIonogram pre).echoes ++ ((headerCount pre : Int) - 1, h, w) :: tl) := by
  have hsplit : pre ++ (w, h) :: post = (pre ++ [(w, h)]) ++ post := by simp
  have hifn : (parseIonogram pre).ifn = (headerCount pre : Int) - 1 := parseIonogram_ifn pre
  constructor
  · intro h1
    obtain ⟨t, ht⟩ := parse_foldl_noise_extend post (parseIonogram (pre ++ [(w, h)]))
    refine ⟨t, ?_⟩
    have : parseIonogram ((pre ++ [(w, h)]) ++ post) =
        post.foldl parseStep (parseIonogram (pre ++ [(w, h)])) := by
      unfold parseIonogram
      rw [List.foldl_append]
    rw [hsplit, this, ht, parseIonogram_append_single, parseStep_noise _ _ hw h1, hifn]
    simp
  · intro h1
    obtain ⟨t, ht⟩ := parse_foldl_echoes_extend post (parseIonogram (pre ++ [(w, h)]))
    refine ⟨t, ?_⟩
    have : parseIonogram ((pre ++ [(w, h)]) ++ post) =
        post.foldl parseStep (parseIonogram (pre ++ [(w, h)])) := by
      unfold parseIonogram
      rw [List.foldl_append]
    rw [hsplit, this, ht, parseIonogram_append_single, parseStep_echo _ _ hw h1, hifn]
    simp

/-- Witness for `parse_freq_from_header_count`: one header then a noise group;
the noise sample is attributed to frequency index `1 - 1 = 0`. -/
theorem parse_freq_from_header_count_witness :
    ∃ tl, (parseIonogram ([(32769, 1)] ++ (7, 1) :: [])).noise =
      (parseIonogram [(32769, 1)]).noise ++ ((headerCount [(32769, 1)] : Int) - 1, 7) :: tl :=
  (parse_freq_from_header_count [(32769, 1)] [] 7 1 (by decide)).1 rfl

set_option maxRecDepth 8192 in
/-- C8: with `date_from = date_to = 2020-01-01` and a 5-minute window the
engine enumerates exactly 288 = 24 × 12 window jobs: the job list is
literally one job per (hour, window-start-minute) combination, in order,
each spanning `[m, m + 5)` on 2020-01-01. -/
theorem window_enumeration_count :
    (enumJobs 2020 1 1 2020 1 1 5).length = 288 ∧
    enumJobs 2020 1 1 2020 1 1 5 =
      (List.range 24).flatMap fun h =>
        (List.range 12).map fun k => (2020, 1, 1, h, 5 * k, 5 * k + 5) := by
  exact ⟨by decide, by decide⟩

end Ion
